import Mathlib

/-!
Verification of the firmware-flashing tool (image loaders and flashing
protocol engine) against its design specification.

The development shallowly embeds the program's pure core:
* the MCU registry (`MCUS`, `ALIASES`, `parse_mcu`),
* the Intel HEX decoder (`ihex_to_bytes`),
* the ELF32 decoder (`elf32_to_bytes`),
* the device session (`Teensy.connect`, `Teensy.boot`, `Teensy.program`).

Machine integers are modelled as `Nat` with explicit `% 2^w` where the
source's wrapping behaviour matters; Rust panics are modelled as an
explicit `panic` outcome (`Option.none` or a `panic` constructor); the
USB transport is abstracted to the trace of buffers it is asked to write,
each paired with its timeout in milliseconds.
-/

/-- MCU descriptor: flash capacity and write-block size (`struct Mcu`). -/
structure Mcu where
  code_size : Nat
  block_size : Nat
deriving DecidableEq, Repr

/-- The canonical MCU table (`static MCUS` in the source). -/
def MCUS : List (String × Mcu) := [
  ("at90usb162", ⟨15872, 128⟩),
  ("atmega32u4", ⟨32256, 128⟩),
  ("at90usb646", ⟨64512, 256⟩),
  ("at90usb1286", ⟨130048, 256⟩),
  ("mkl26z64", ⟨63488, 512⟩),
  ("mk20dx128", ⟨131072, 1024⟩),
  ("mk20dx256", ⟨262144, 1024⟩),
  ("mk64fx512", ⟨524288, 1024⟩),
  ("mk66fx1m0", ⟨1048576, 1024⟩)]

/-- The alias table (`static ALIASES`): alias name, canonical MCU name. -/
def ALIASES : List (String × String) := [
  ("TEENSY2", "atmega32u4"),
  ("TEENSY2PP", "at90usb1286"),
  ("TEENSYLC", "mkl26z64"),
  ("TEENSY30", "mk20dx128"),
  ("TEENSY31", "mk20dx256"),
  ("TEENSY32", "mk20dx256"),
  ("TEENSY35", "mk64fx512"),
  ("TEENSY36", "mk66fx1m0")]

/-- `parse_mcu`: substitute the canonical name if the argument is an alias,
then look the (possibly substituted) name up in the canonical table. -/
def parse_mcu (arg : String) : Option Mcu :=
  let name := ((ALIASES.find? (fun p => p.1 == arg)).map Prod.snd).getD arg
  (MCUS.find? (fun p => p.1 == name)).map Prod.snd

/-- C9: for every entry of the alias table, resolving the alias yields the
same MCU descriptor as resolving the canonical name it maps to. -/
theorem parse_mcu_alias_eq_canonical (a c : String) (h : (a, c) ∈ ALIASES) :
    parse_mcu a = parse_mcu c := by
  fin_cases h <;> rfl

/-- Witness for C9 at the concrete registry entry `("TEENSY2", "atmega32u4")`. -/
theorem parse_mcu_alias_eq_canonical_witness :
    ("TEENSY2", "atmega32u4") ∈ ALIASES ∧ parse_mcu "TEENSY2" = parse_mcu "atmega32u4" :=
  ⟨by decide, parse_mcu_alias_eq_canonical "TEENSY2" "atmega32u4" (by decide)⟩

/-! ## Intel HEX decoder -/

/-- Parsed Intel HEX records (the `ihex` crate's `Record`); the text-level
parsing/checksum layer is an external collaborator, so records arrive
already tokenized.  `offset` is the data record's 16-bit offset, `value`
its payload bytes. -/
inductive IHexRecord where
  | data (offset : Nat) (value : List Nat)
  | extendedSegmentAddress (base : Nat)
  | extendedLinearAddress (base : Nat)
  | endOfFile
  | startLinearAddress (a : Nat)
  | startSegmentAddress (cs ip : Nat)
deriving DecidableEq, Repr

/-- The Intel HEX decode error (`enum IHexError`). -/
inductive IHexError where
  | addressTooHigh (endAddr : Nat)
deriving DecidableEq, Repr

/-- The source's inner copy loop `for (n, b) in value.iter().enumerate()
{ bytes[base_address + offset + n] = *b }`, as repeated `List.set`. -/
def writeBytes (bytes : List Nat) (pos : Nat) : List Nat → List Nat
  | [] => bytes
  | b :: rest => writeBytes (bytes.set pos b) (pos + 1) rest

/-- The record-processing loop of `ihex_to_bytes`, threading the mutable
state `(base_address, bytes, len)`. -/
def ihexGo (mcu : Mcu) : List IHexRecord → Nat → List Nat → Nat →
    Except IHexError (List Nat × Nat)
  | [], _, bytes, len => .ok (bytes, len)
  | r :: recs, base, bytes, len =>
    match r with
    | .data offset value =>
      let endAddr := base + offset + value.length
      if mcu.code_size ≤ endAddr then
        .error (.addressTooHigh endAddr)
      else
        ihexGo mcu recs base (writeBytes bytes (base + offset) value) (len + value.length)
    | .extendedSegmentAddress b => ihexGo mcu recs (b <<< 4) bytes len
    | .extendedLinearAddress b => ihexGo mcu recs (b <<< 16) bytes len
    | .endOfFile => .ok (bytes, len)
    | .startLinearAddress _ => ihexGo mcu recs base bytes len
    | .startSegmentAddress _ _ => ihexGo mcu recs base bytes len

/-- `ihex_to_bytes`: decode a record sequence into a flat image of
`code_size` bytes initialized to the erased-flash value `0xFF`, together
with the count of bytes actually written. -/
def ihex_to_bytes (recs : List IHexRecord) (mcu : Mcu) :
    Except IHexError (List Nat × Nat) :=
  ihexGo mcu recs 0 (List.replicate mcu.code_size 0xFF) 0

/-- Address scan of the record stream: the end address of the first data
record (in processing order, stopping at end-of-file) whose end address
reaches `code_size`, tracking `base_address` exactly as the decoder does
but independent of the byte buffer. -/
def firstOffense (cs : Nat) : List IHexRecord → Nat → Option Nat
  | [], _ => none
  | r :: recs, base =>
    match r with
    | .data offset value =>
      let endAddr := base + offset + value.length
      if cs ≤ endAddr then some endAddr else firstOffense cs recs base
    | .extendedSegmentAddress b => firstOffense cs recs (b <<< 4)
    | .extendedLinearAddress b => firstOffense cs recs (b <<< 16)
    | .endOfFile => none
    | .startLinearAddress _ => firstOffense cs recs base
    | .startSegmentAddress _ _ => firstOffense cs recs base

theorem ihexGo_error_iff (mcu : Mcu) (recs : List IHexRecord) (base : Nat)
    (bytes : List Nat) (len : Nat) (e : Nat) :
    ihexGo mcu recs base bytes len = .error (.addressTooHigh e) ↔
      firstOffense mcu.code_size recs base = some e := by
  induction recs generalizing base bytes len with
  | nil => simp [ihexGo, firstOffense]
  | cons r recs ih =>
    cases r with
    | data offset value =>
      by_cases h : mcu.code_size ≤ base + offset + value.length <;>
        simp [ihexGo, firstOffense, h, ih]
    | extendedSegmentAddress b => simp [ihexGo, firstOffense, ih]
    | extendedLinearAddress b => simp [ihexGo, firstOffense, ih]
    | endOfFile => simp [ihexGo, firstOffense]
    | startLinearAddress a => simp [ihexGo, firstOffense, ih]
    | startSegmentAddress a b => simp [ihexGo, firstOffense, ih]

/-- C1 counterexample: a data record supplying only the byte at address
`code_size - 1` (here `code_size = 4`, so offset 3, one byte) is rejected
with `AddressTooHigh(code_size)` — the byte at `code_size - 1` is NOT
writable, contradicting the claim that decoding succeeds with
`code_size - 1` as the last valid writable byte. -/
theorem ihex_last_byte_counterexample :
    (⟨4, 2⟩ : Mcu).code_size - 1 = 3 ∧
    ihex_to_bytes [IHexRecord.data 3 [0xAB]] ⟨4, 2⟩ =
      .error (.addressTooHigh 4) := by
  constructor
  · rfl
  · rfl

/-- C1 (amended): decoding fails with `AddressTooHigh(e)` exactly when the
scan of the records in processing order (tracking `base_address`, stopping
at end-of-file) finds a data record whose end address reaches `code_size`,
`e` being the first such end address; the last valid writable byte is the
one at address `code_size - 2` (a one-byte record there succeeds and
stores the byte), while a one-byte record at `code_size - 1` fails. -/
theorem ihex_address_bound (recs : List IHexRecord) (mcu : Mcu) (b : Nat)
    (hcs : 2 ≤ mcu.code_size) :
    (∀ e, ihex_to_bytes recs mcu = .error (.addressTooHigh e) ↔
        firstOffense mcu.code_size recs 0 = some e) ∧
    ihex_to_bytes [IHexRecord.data (mcu.code_size - 2) [b]] mcu =
      .ok ((List.replicate mcu.code_size 0xFF).set (mcu.code_size - 2) b, 1) ∧
    ihex_to_bytes [IHexRecord.data (mcu.code_size - 1) [b]] mcu =
      .error (.addressTooHigh mcu.code_size) := by
  refine ⟨fun e => ihexGo_error_iff mcu recs 0 _ 0 e, ?_, ?_⟩
  · have h : ¬ mcu.code_size ≤ 0 + (mcu.code_size - 2) + 1 := by omega
    simp [ihex_to_bytes, ihexGo, h, writeBytes, Nat.sub_add_cancel]
    omega
  · have h : mcu.code_size - 1 + 1 = mcu.code_size := by omega
    simp [ihex_to_bytes, ihexGo, h, Nat.le_refl]

/-- Witness for C1 (amended) at `code_size = 4`, `b = 0xAB`, on a concrete
record list that trips the bound. -/
theorem ihex_address_bound_witness :
    2 ≤ (⟨4, 2⟩ : Mcu).code_size ∧
    (ihex_to_bytes [IHexRecord.data 0 [1, 2, 3, 4]] ⟨4, 2⟩ =
        .error (.addressTooHigh 4) ↔
      firstOffense 4 [IHexRecord.data 0 [1, 2, 3, 4]] 0 = some 4) ∧
    ihex_to_bytes [IHexRecord.data 2 [0xAB]] ⟨4, 2⟩ =
      .ok ((List.replicate 4 0xFF).set 2 0xAB, 1) ∧
    ihex_to_bytes [IHexRecord.data 3 [0xAB]] ⟨4, 2⟩ =
      .error (.addressTooHigh 4) := by
  have h := ihex_address_bound [IHexRecord.data 0 [1, 2, 3, 4]] ⟨4, 2⟩ 0xAB (by decide)
  exact ⟨by decide, h.1 4, h.2.1, h.2.2⟩

theorem ihexGo_ok_iff (mcu : Mcu) (recs : List IHexRecord) (base : Nat)
    (bytes : List Nat) (len : Nat) :
    (∃ out, ihexGo mcu recs base bytes len = .ok out) ↔
      firstOffense mcu.code_size recs base = none := by
  induction recs generalizing base bytes len with
  | nil => simp [ihexGo, firstOffense]
  | cons r recs ih =>
    cases r with
    | data offset value =>
      by_cases h : mcu.code_size ≤ base + offset + value.length <;>
        simp [ihexGo, firstOffense, h, ih]
    | extendedSegmentAddress b => simp [ihexGo, firstOffense, ih]
    | extendedLinearAddress b => simp [ihexGo, firstOffense, ih]
    | endOfFile => simp [ihexGo, firstOffense]
    | startLinearAddress a => simp [ihexGo, firstOffense, ih]
    | startSegmentAddress a b => simp [ihexGo, firstOffense, ih]
/-! ## Device session and flashing protocol engine -/

/-- `enum ProgramError`.  `writeError` wraps a transport write failure; the
transport is abstracted here as always succeeding, so the trace model never
produces it, but the variant is kept to mirror the source enum. -/
inductive ProgramError where
  | binaryRemainder
  | unknownBlockSize (size : Nat)
  | writeError
deriving DecidableEq, Repr

/-- One buffer handed to the transport's timed write, with its timeout in
milliseconds. -/
structure UsbWrite where
  data : List Nat
  timeoutMs : Nat
deriving DecidableEq, Repr

/-- `struct Teensy`: the device session state (the owned transport handle
is abstracted away). -/
structure Teensy where
  code_size : Nat
  block_size : Nat
  header_size : Nat
deriving DecidableEq, Repr

/-- `Teensy::connect`: derives `header_size` from the descriptor's
`block_size` (64 if 512 or 1024, else 2).  The transport connect call is
abstracted away, so the session itself is returned. -/
def Teensy.connect (mcu : Mcu) : Teensy :=
  { code_size := mcu.code_size,
    block_size := mcu.block_size,
    header_size := if mcu.block_size = 512 ∨ mcu.block_size = 1024 then 64 else 2 }

/-- `Teensy::write_size`. -/
def Teensy.write_size (t : Teensy) : Nat := t.block_size + t.header_size

/-- `Teensy::boot`: a zero-filled buffer of `write_size()` bytes whose
first three bytes are set to `0xFF`, written with a 500 ms timeout.
`none` models the index-out-of-bounds panic of `buf[2] = 0xff` when
`write_size() < 3` (impossible for registry descriptors). -/
def Teensy.boot (t : Teensy) : Option UsbWrite :=
  if 3 ≤ t.write_size then
    some ⟨(((List.replicate t.write_size 0).set 0 0xFF).set 1 0xFF).set 2 0xFF, 500⟩
  else none

/-- The frame header built by `Teensy::program` for a block address:
2 bytes for `block_size <= 256` (plain little-endian 16-bit address when
`code_size < 0x10000`, else the address shifted right 8 bits), otherwise
the 64-byte header whose first 3 bytes are the little-endian 24-bit
address.  `as u8` casts are `% 256`. -/
def frameHeader (t : Teensy) (addr : Nat) : List Nat :=
  if t.block_size ≤ 256 then
    if t.code_size < 0x10000 then
      [addr % 256, addr / 2 ^ 8 % 256]
    else
      [addr / 2 ^ 8 % 256, addr / 2 ^ 16 % 256]
  else
    [addr % 256, addr / 2 ^ 8 % 256, addr / 2 ^ 16 % 256] ++ List.replicate 61 0

/-- The wire packet for one block: header, then the block's bytes; 5000 ms
timeout for the block at address 0, 500 ms afterwards. -/
def blockWrite (t : Teensy) (addr : Nat) (chunk : List Nat) : UsbWrite :=
  ⟨frameHeader t addr ++ chunk, if addr = 0 then 5000 else 500⟩

/-- `(0..code_size).step_by(block_size)`. -/
def blockAddrs (cs bs : Nat) : List Nat :=
  (List.range ((cs + bs - 1) / bs)).map (fun k => k * bs)

/-- `binary.chunks_exact(bs)`: the `len / bs` consecutive chunks of
exactly `bs` bytes each (the `i`-th being `binary[i*bs .. (i+1)*bs]`),
the remainder dropped. -/
def chunksExact (bs : Nat) (l : List Nat) : List (List Nat) :=
  (List.range (l.length / bs)).map (fun i => (l.drop (i * bs)).take bs)

/-- The block loop of `Teensy::program`, producing the trace of transport
writes and of progress-callback invocations (the transport is modelled as
always succeeding, so the loop never aborts early). -/
def progLoop (t : Teensy) : List (Nat × List Nat) → List UsbWrite × List Nat
  | [] => ([], [])
  | (addr, chunk) :: rest =>
    if addr ≠ 0 ∧ chunk.all (fun x => x = 0xFF) then
      progLoop t rest
    else
      (blockWrite t addr chunk :: (progLoop t rest).1, addr :: (progLoop t rest).2)

/-- The address/chunk pairs iterated by `Teensy::program`:
`(0..code_size).step_by(block_size).zip(binary.chunks_exact(block_size))`. -/
def progPairs (t : Teensy) (binary : List Nat) : List (Nat × List Nat) :=
  (blockAddrs t.code_size t.block_size).zip (chunksExact t.block_size binary)

/-- The outcome of one `program()` call: the transport writes issued (in
order), the progress-callback arguments (in order), and the returned
error, if any. -/
structure ProgOut where
  writes : List UsbWrite
  feedbacks : List Nat
  error : Option ProgramError
deriving DecidableEq, Repr

/-- `Teensy::program`.  `none` models the panic of `chunks_exact(0)`;
otherwise: fail with `BinaryRemainder` before any write if the image
length is not a multiple of `block_size`, else run the block loop. -/
def Teensy.program (t : Teensy) (binary : List Nat) : Option ProgOut :=
  if t.block_size = 0 then none
  else if binary.length % t.block_size ≠ 0 then
    some ⟨[], [], some .binaryRemainder⟩
  else
    some ⟨(progLoop t (progPairs t binary)).1, (progLoop t (progPairs t binary)).2, none⟩

/-- A block survives the skip rule iff it is at address 0 or contains a
byte other than `0xFF`. -/
def keepBlock (p : Nat × List Nat) : Bool :=
  decide (p.1 = 0) || ! p.2.all (fun x => x = 0xFF)

theorem progLoop_eq_filter (t : Teensy) (L : List (Nat × List Nat)) :
    progLoop t L = ((L.filter keepBlock).map (fun p => blockWrite t p.1 p.2),
      (L.filter keepBlock).map Prod.fst) := by
  induction L with
  | nil => simp [progLoop]
  | cons p rest ih =>
    obtain ⟨addr, chunk⟩ := p
    by_cases h : addr ≠ 0 ∧ chunk.all (fun x => x = 0xFF)
    · have hk : keepBlock (addr, chunk) = false := by
        simp only [keepBlock]
        simp only [ne_eq] at h
        simp [h.1, h.2]
      simp [progLoop, h, hk, ih]
    · have hk : keepBlock (addr, chunk) = true := by
        by_cases ha : addr = 0
        · simp [keepBlock, ha]
        · have hall : chunk.all (fun x => x = 0xFF) = false := by
            cases hca : chunk.all (fun x => x = 0xFF)
            · rfl
            · exact absurd ⟨ha, hca⟩ h
          simp [keepBlock, hall]
      simp only [progLoop, if_neg h, List.filter_cons, hk, if_true, ih, List.map_cons]

/-- C6: for every image whose length is not an exact multiple of
`block_size`, `program()` fails with `BinaryRemainder` and performs zero
transport writes (and zero progress callbacks). -/
theorem program_remainder_zero_writes (t : Teensy) (binary : List Nat)
    (hbs : 0 < t.block_size) (hrem : binary.length % t.block_size ≠ 0) :
    t.program binary = some ⟨[], [], some .binaryRemainder⟩ := by
  simp [Teensy.program, Nat.pos_iff_ne_zero.mp hbs, hrem]

/-- Witness for C6: a 1-byte image on the `atmega32u4` session
(`block_size = 128`). -/
theorem program_remainder_zero_writes_witness :
    0 < (Teensy.connect ⟨32256, 128⟩).block_size ∧
    [0].length % (Teensy.connect ⟨32256, 128⟩).block_size ≠ 0 ∧
    (Teensy.connect ⟨32256, 128⟩).program [0] =
      some ⟨[], [], some .binaryRemainder⟩ :=
  ⟨by decide, by decide,
    program_remainder_zero_writes (Teensy.connect ⟨32256, 128⟩) [0]
      (by decide) (by decide)⟩

/-- C8: `boot()` performs exactly one write: a buffer of length exactly
`block_size + header_size` whose first three bytes are `0xFF 0xFF 0xFF`
and whose remaining bytes are all zero, with a 500 ms timeout. -/
theorem boot_frame_shape (t : Teensy) (h3 : 3 ≤ t.write_size) :
    t.boot = some ⟨0xFF :: 0xFF :: 0xFF :: List.replicate (t.write_size - 3) 0, 500⟩ ∧
    (0xFF :: 0xFF :: 0xFF :: List.replicate (t.write_size - 3) 0).length =
      t.block_size + t.header_size := by
  obtain ⟨k, hk⟩ : ∃ k, t.write_size = 3 + k := ⟨t.write_size - 3, by omega⟩
  constructor
  · have h4 : (3 : Nat) ≤ 3 + k := by omega
    simp only [Teensy.boot, hk, Nat.add_sub_cancel_left, List.replicate_add, if_pos h4]
    rfl
  · simp only [List.length_cons, List.length_replicate]
    have : t.write_size = t.block_size + t.header_size := rfl
    omega

/-- Witness for C8 on the `mkl26z64` session (`block_size = 512`,
`header_size = 64`). -/
theorem boot_frame_shape_witness :
    3 ≤ (Teensy.connect ⟨63488, 512⟩).write_size ∧
    ((Teensy.connect ⟨63488, 512⟩).boot =
        some ⟨0xFF :: 0xFF :: 0xFF ::
          List.replicate ((Teensy.connect ⟨63488, 512⟩).write_size - 3) 0, 500⟩ ∧
      (0xFF :: 0xFF :: 0xFF ::
          List.replicate ((Teensy.connect ⟨63488, 512⟩).write_size - 3) 0).length =
        (Teensy.connect ⟨63488, 512⟩).block_size +
          (Teensy.connect ⟨63488, 512⟩).header_size) :=
  ⟨by decide, boot_frame_shape (Teensy.connect ⟨63488, 512⟩) (by decide)⟩

set_option maxRecDepth 8192 in
/-- C2: evaluation of `program()` at the failing input — a session with
the unrecognized `block_size = 300` (neither `<= 256` nor 512/1024) and a
300-byte image.  The code does NOT fail with `UnknownBlockSize(300)`: the
`else` branch of the frame-layout `if` catches every `block_size > 256`,
so the block is framed with the 64-byte header and written, and the call
returns `Ok`.  `ProgramError::UnknownBlockSize` is constructed nowhere in
the source, although `main.rs` has a handler for it. -/
theorem program_unknown_block_size_eval :
    (Teensy.connect ⟨300, 300⟩).block_size = 300 ∧
    (Teensy.connect ⟨300, 300⟩).program (List.replicate 300 0) =
      some ⟨[⟨List.replicate 64 0 ++ List.replicate 300 0, 5000⟩], [0], none⟩ ∧
    ∀ out : ProgOut,
      (Teensy.connect ⟨300, 300⟩).program (List.replicate 300 0) = some out →
        out.error ≠ some (ProgramError.unknownBlockSize 300) := by
  have h2 : (Teensy.connect ⟨300, 300⟩).program (List.replicate 300 0) =
      some ⟨[⟨List.replicate 64 0 ++ List.replicate 300 0, 5000⟩], [0], none⟩ := by
    decide
  refine ⟨rfl, h2, ?_⟩
  intro out hout
  rw [h2, Option.some_inj] at hout
  rw [← hout]
  decide

/-- C5 counterexample: on the `at90usb1286`-class session
(`code_size = 130048`, `block_size = 256`), the 2-byte header for block
address `0x10000` is `[0x00, 0x01]` — `(0x10000 >> 8) as u8` truncates
`0x100` to `0x00` — not `[0x01, 0x01]` as the claim states. -/
theorem frame_header_counterexample :
    frameHeader (Teensy.connect ⟨130048, 256⟩) 0x10000 = [0x00, 0x01] ∧
    frameHeader (Teensy.connect ⟨130048, 256⟩) 0x10000 ≠ [0x01, 0x01] := by
  decide

/-- C5 (amended): with `block_size = 256` and `code_size = 130048`
(`>= 0x10000`), the header for block address `0x10000` is
`[0x00, 0x01]` (low byte of `addr >> 8`, then low byte of `addr >> 16`),
and that is exactly the header of the frame `program()`'s loop writes for
that block (500 ms timeout, feedback at `0x10000`) whenever the block is
not skipped; with `code_size = 32256` (`< 0x10000`) the header is the
plain little-endian 16-bit address. -/
theorem frame_header_encoding (addr : Nat) (chunk : List Nat)
    (h16 : addr < 0x10000) (hch : ¬ chunk.all (fun x => x = 0xFF) = true) :
    frameHeader (Teensy.connect ⟨130048, 256⟩) 0x10000 = [0x00, 0x01] ∧
    frameHeader (Teensy.connect ⟨32256, 256⟩) addr = [addr % 256, addr / 256] ∧
    progLoop (Teensy.connect ⟨130048, 256⟩) [(0x10000, chunk)] =
      ([⟨frameHeader (Teensy.connect ⟨130048, 256⟩) 0x10000 ++ chunk, 500⟩],
        [0x10000]) := by
  refine ⟨by decide, ?_, ?_⟩
  · have h1 : addr / 256 < 256 := by omega
    simp [frameHeader, Teensy.connect, Nat.mod_eq_of_lt h1]
  · rw [progLoop_eq_filter]
    have hall : chunk.all (fun x => x = 0xFF) = false := eq_false_of_ne_true hch
    have hk : keepBlock (0x10000, chunk) = true := by
      simp [keepBlock, hall]
    simp [List.filter_cons, hk, blockWrite]

/-- Witness for C5 (amended) at `addr = 0x1234` and a one-byte chunk. -/
theorem frame_header_encoding_witness :
    (0x1234 : Nat) < 0x10000 ∧ ¬ ([0] : List Nat).all (fun x => x = 0xFF) = true ∧
    (frameHeader (Teensy.connect ⟨130048, 256⟩) 0x10000 = [0x00, 0x01] ∧
      frameHeader (Teensy.connect ⟨32256, 256⟩) 0x1234 =
        [0x1234 % 256, 0x1234 / 256] ∧
      progLoop (Teensy.connect ⟨130048, 256⟩) [(0x10000, [0])] =
        ([⟨frameHeader (Teensy.connect ⟨130048, 256⟩) 0x10000 ++ [0], 500⟩],
          [0x10000])) :=
  ⟨by decide, by decide, frame_header_encoding 0x1234 [0] (by decide) (by decide)⟩

theorem blockAddrs_nodup (cs bs : Nat) (hbs : 0 < bs) : (blockAddrs cs bs).Nodup := by
  refine List.Nodup.map ?_ (List.nodup_range _)
  intro a b hab
  exact Nat.eq_of_mul_eq_mul_right hbs hab

theorem zip_fst_inj {A : List Nat} {C : List (List Nat)} (hA : A.Nodup)
    {p q : Nat × List Nat} (hp : p ∈ A.zip C) (hq : q ∈ A.zip C) (h1 : p.1 = q.1) :
    p = q := by
  induction A generalizing C with
  | nil => simp at hp
  | cons a A ih =>
    cases C with
    | nil => simp at hp
    | cons c C =>
      rw [List.nodup_cons] at hA
      rw [List.zip_cons_cons, List.mem_cons] at hp hq
      obtain ⟨pa, pc⟩ := p
      obtain ⟨qa, qc⟩ := q
      simp only at h1
      subst h1
      rcases hp with hp | hp
      · rcases hq with hq | hq
        · rw [hp, hq]
        · exfalso
          have := (List.of_mem_zip hq).1
          rw [show pa = a from (Prod.mk.injEq _ _ _ _).mp hp |>.1] at this
          exact hA.1 this
      · rcases hq with hq | hq
        · exfalso
          have := (List.of_mem_zip hp).1
          rw [show pa = a from (Prod.mk.injEq _ _ _ _).mp hq |>.1] at this
          exact hA.1 this
        · exact ih hA.2 hp hq

theorem frameHeader_length (t : Teensy) (a b : Nat) :
    (frameHeader t a).length = (frameHeader t b).length := by
  unfold frameHeader
  by_cases h1 : t.block_size ≤ 256
  · by_cases h2 : t.code_size < 0x10000 <;> simp [h1, h2]
  · simp [h1]

theorem map_fst_zip_take (A : List Nat) (C : List (List Nat)) :
    (A.zip C).map Prod.fst = A.take (min A.length C.length) := by
  induction A generalizing C with
  | nil => simp
  | cons a A ih =>
    cases C with
    | nil => simp
    | cons c C =>
      simp only [List.zip_cons_cons, List.map_cons, List.length_cons,
        Nat.succ_min_succ, List.take_succ_cons, ih]

theorem progPairs_head (t : Teensy) (binary : List Nat) (hbs : 0 < t.block_size)
    (hcs : 0 < t.code_size) (hlen : t.block_size ≤ binary.length) :
    ∃ rest, progPairs t binary = (0, binary.take t.block_size) :: rest := by
  have hn : 0 < (t.code_size + t.block_size - 1) / t.block_size := by
    apply Nat.div_pos _ hbs
    omega
  have hm : 0 < binary.length / t.block_size := Nat.div_pos hlen hbs
  obtain ⟨n, hn'⟩ : ∃ n, (t.code_size + t.block_size - 1) / t.block_size = n + 1 :=
    ⟨_, (Nat.succ_pred_eq_of_pos hn).symm⟩
  obtain ⟨m, hm'⟩ : ∃ m, binary.length / t.block_size = m + 1 :=
    ⟨_, (Nat.succ_pred_eq_of_pos hm).symm⟩
  refine ⟨(((List.range n).map Nat.succ).map (fun k => k * t.block_size)).zip
    (((List.range m).map Nat.succ).map
      (fun i => (binary.drop (i * t.block_size)).take t.block_size)), ?_⟩
  simp only [progPairs, blockAddrs, chunksExact, hn', hm', List.range_succ_eq_map,
    List.map_cons, List.zip_cons_cons, Nat.zero_mul, List.drop_zero]

/-- C7: with the image length an exact multiple of `block_size`, the
writes of `program()` are exactly the frames of the blocks that survive
the skip rule, in order, and likewise for the progress callbacks; a block
of all-`0xFF` bytes at a non-zero address survives nothing — it triggers
no callback and none of the issued writes is its frame — while the block
at address 0 is always the first one reported and written, whatever its
content. -/
theorem program_skip_rule (t : Teensy) (binary : List Nat) (out : ProgOut)
    (hbs : 0 < t.block_size) (hrem : binary.length % t.block_size = 0)
    (hout : t.program binary = some out) :
    out.error = none ∧
    out.writes = ((progPairs t binary).filter keepBlock).map
      (fun p => blockWrite t p.1 p.2) ∧
    out.feedbacks = ((progPairs t binary).filter keepBlock).map Prod.fst ∧
    (∀ p ∈ progPairs t binary, p.1 ≠ 0 → p.2.all (fun x => x = 0xFF) = true →
      keepBlock p = false ∧ p.1 ∉ out.feedbacks ∧
      ∀ w ∈ out.writes, w ≠ blockWrite t p.1 p.2) ∧
    (binary ≠ [] → 0 < t.code_size →
      out.feedbacks.head? = some 0 ∧
      out.writes.head? = some (blockWrite t 0 (binary.take t.block_size))) := by
  have hout' : out = ⟨((progPairs t binary).filter keepBlock).map
      (fun p => blockWrite t p.1 p.2),
      ((progPairs t binary).filter keepBlock).map Prod.fst, none⟩ := by
    rw [Teensy.program, if_neg (Nat.pos_iff_ne_zero.mp hbs), if_neg (by simpa using hrem),
      progLoop_eq_filter, Option.some_inj] at hout
    exact hout.symm
  subst hout'
  refine ⟨rfl, rfl, rfl, ?_, ?_⟩
  · intro p hp hp0 hpff
    have hk : keepBlock p = false := by
      simp only [keepBlock, hpff]
      simp [hp0]
    refine ⟨hk, ?_, ?_⟩
    · intro hmem
      simp only [List.mem_map] at hmem
      obtain ⟨q, hq, hq1⟩ := hmem
      rw [List.mem_filter] at hq
      have : q = p := zip_fst_inj (blockAddrs_nodup t.code_size t.block_size hbs) hq.1 hp hq1
      rw [this] at hq
      rw [hk] at hq
      exact Bool.false_ne_true hq.2
    · intro w hw heq
      simp only [List.mem_map] at hw
      obtain ⟨q, hq, hq1⟩ := hw
      rw [List.mem_filter] at hq
      by_cases hqc : q.2 = p.2
      · have hkq := hq.2
        simp only [keepBlock, hqc, hpff] at hkq
        simp only [Bool.not_true, Bool.or_false] at hkq
        have hq0 : q.1 = 0 := of_decide_eq_true hkq
        rw [← hq1] at heq
        have htq := congrArg UsbWrite.timeoutMs heq
        simp [blockWrite, hq0, hp0] at htq
      · rw [← hq1] at heq
        have hdata := congrArg UsbWrite.data heq
        simp only [blockWrite] at hdata
        exact hqc (List.append_inj_right hdata (frameHeader_length t q.1 p.1))
  · intro hne hcs
    have hlen : t.block_size ≤ binary.length := by
      rcases Nat.lt_or_ge binary.length t.block_size with h | h
      · exfalso
        rw [Nat.mod_eq_of_lt h] at hrem
        exact hne (List.eq_nil_of_length_eq_zero hrem)
      · exact h
    obtain ⟨rest, hrest⟩ := progPairs_head t binary hbs hcs hlen
    have hk0 : keepBlock (0, binary.take t.block_size) = true := by
      simp [keepBlock]
    rw [hrest]
    simp [List.filter_cons, hk0]

set_option maxRecDepth 8192 in
/-- Witness for C7 on the `atmega32u4` session (`block_size = 128`) with a
two-block image whose second block is all `0xFF`: only the block at
address 0 is reported and written. -/
theorem program_skip_rule_witness :
    0 < (Teensy.connect ⟨32256, 128⟩).block_size ∧
    (List.replicate 128 0 ++ List.replicate 128 0xFF).length %
      (Teensy.connect ⟨32256, 128⟩).block_size = 0 ∧
    (Teensy.connect ⟨32256, 128⟩).program
        (List.replicate 128 0 ++ List.replicate 128 0xFF) =
      some ⟨[blockWrite (Teensy.connect ⟨32256, 128⟩) 0 (List.replicate 128 0)],
        [0], none⟩ ∧
    ((⟨[blockWrite (Teensy.connect ⟨32256, 128⟩) 0 (List.replicate 128 0)],
        [0], none⟩ : ProgOut).error = none ∧
      (⟨[blockWrite (Teensy.connect ⟨32256, 128⟩) 0 (List.replicate 128 0)],
        [0], none⟩ : ProgOut).writes =
        ((progPairs (Teensy.connect ⟨32256, 128⟩)
            (List.replicate 128 0 ++ List.replicate 128 0xFF)).filter keepBlock).map
          (fun p => blockWrite (Teensy.connect ⟨32256, 128⟩) p.1 p.2) ∧
      (⟨[blockWrite (Teensy.connect ⟨32256, 128⟩) 0 (List.replicate 128 0)],
        [0], none⟩ : ProgOut).feedbacks =
        ((progPairs (Teensy.connect ⟨32256, 128⟩)
            (List.replicate 128 0 ++ List.replicate 128 0xFF)).filter keepBlock).map
          Prod.fst ∧
      (∀ p ∈ progPairs (Teensy.connect ⟨32256, 128⟩)
          (List.replicate 128 0 ++ List.replicate 128 0xFF),
        p.1 ≠ 0 → p.2.all (fun x => x = 0xFF) = true →
          keepBlock p = false ∧
          p.1 ∉ (⟨[blockWrite (Teensy.connect ⟨32256, 128⟩) 0 (List.replicate 128 0)],
            [0], none⟩ : ProgOut).feedbacks ∧
          ∀ w ∈ (⟨[blockWrite (Teensy.connect ⟨32256, 128⟩) 0 (List.replicate 128 0)],
            [0], none⟩ : ProgOut).writes,
            w ≠ blockWrite (Teensy.connect ⟨32256, 128⟩) p.1 p.2) ∧
      (List.replicate 128 0 ++ List.replicate 128 0xFF ≠ [] →
        0 < (Teensy.connect ⟨32256, 128⟩).code_size →
        (⟨[blockWrite (Teensy.connect ⟨32256, 128⟩) 0 (List.replicate 128 0)],
          [0], none⟩ : ProgOut).feedbacks.head? = some 0 ∧
        (⟨[blockWrite (Teensy.connect ⟨32256, 128⟩) 0 (List.replicate 128 0)],
          [0], none⟩ : ProgOut).writes.head? =
          some (blockWrite (Teensy.connect ⟨32256, 128⟩) 0
            ((List.replicate 128 0 ++ List.replicate 128 0xFF).take
              (Teensy.connect ⟨32256, 128⟩).block_size)))) := by
  have hprog : (Teensy.connect ⟨32256, 128⟩).program
      (List.replicate 128 0 ++ List.replicate 128 0xFF) =
    some ⟨[blockWrite (Teensy.connect ⟨32256, 128⟩) 0 (List.replicate 128 0)],
      [0], none⟩ := by decide
  exact ⟨by decide, by decide, hprog,
    program_skip_rule (Teensy.connect ⟨32256, 128⟩)
      (List.replicate 128 0 ++ List.replicate 128 0xFF) _ (by decide) (by decide) hprog⟩

theorem ceil_div_eq_div_of_dvd (cs bs : Nat) (hbs : 0 < bs) (hdvd : bs ∣ cs) :
    (cs + bs - 1) / bs = cs / bs := by
  obtain ⟨k, hk⟩ := hdvd
  subst hk
  have e1 : bs * k + bs - 1 = bs * k + (bs - 1) := by omega
  rw [e1, Nat.mul_add_div hbs, Nat.div_eq_of_lt (by omega),
    Nat.mul_div_cancel_left _ hbs, Nat.add_zero]

/-- C10: for every image whose length is an exact multiple of
`block_size`, on a session whose `block_size` divides `code_size` (true of
every registry descriptor), `program()` returns success, iterating only
`min(binary.len(), code_size) / block_size` address/chunk pairs; every
reported block address `a` satisfies `a + block_size <= min(binary.len(),
code_size)`, so blocks of the image beyond `code_size` and addresses
beyond the image's end are silently neither written nor reported. -/
theorem program_length_mismatch (t : Teensy) (binary : List Nat)
    (hbs : 0 < t.block_size) (hdvd : t.block_size ∣ t.code_size)
    (hrem : binary.length % t.block_size = 0) :
    t.program binary =
      some ⟨((progPairs t binary).filter keepBlock).map
          (fun p => blockWrite t p.1 p.2),
        ((progPairs t binary).filter keepBlock).map Prod.fst, none⟩ ∧
    (progPairs t binary).length = min binary.length t.code_size / t.block_size ∧
    (∀ a ∈ ((progPairs t binary).filter keepBlock).map Prod.fst,
      a + t.block_size ≤ min binary.length t.code_size) := by
  have hN : (progPairs t binary).length =
      min (binary.length / t.block_size) (t.code_size / t.block_size) := by
    simp only [progPairs, List.length_zip, blockAddrs, chunksExact,
      List.length_map, List.length_range,
      ceil_div_eq_div_of_dvd t.code_size t.block_size hbs hdvd]
    omega
  have hmin : min (binary.length / t.block_size) (t.code_size / t.block_size) =
      min binary.length t.code_size / t.block_size := by
    rcases le_total binary.length t.code_size with h | h
    · rw [min_eq_left h, min_eq_left (Nat.div_le_div_right h)]
    · rw [min_eq_right h, min_eq_right (Nat.div_le_div_right h)]
  refine ⟨?_, by rw [hN, hmin], ?_⟩
  · rw [Teensy.program, if_neg (Nat.pos_iff_ne_zero.mp hbs),
      if_neg (by simpa using hrem), progLoop_eq_filter]
  · intro a ha
    simp only [List.mem_map] at ha
    obtain ⟨q, hq, hq1⟩ := ha
    rw [List.mem_filter] at hq
    have hfst : a ∈ (progPairs t binary).map Prod.fst :=
      List.mem_map.mpr ⟨q, hq.1, hq1⟩
    rw [progPairs, map_fst_zip_take] at hfst
    have hlenA : (blockAddrs t.code_size t.block_size).length =
        t.code_size / t.block_size := by
      simp [blockAddrs, ceil_div_eq_div_of_dvd t.code_size t.block_size hbs hdvd]
    have hlenC : (chunksExact t.block_size binary).length =
        binary.length / t.block_size := by
      simp [chunksExact]
    rw [hlenA, hlenC, blockAddrs, ← List.map_take, List.take_range] at hfst
    simp only [List.mem_map, List.mem_range] at hfst
    obtain ⟨k, hk, hk1⟩ := hfst
    have hkN : k < min binary.length t.code_size / t.block_size := by
      have : min (t.code_size / t.block_size) (binary.length / t.block_size) =
          min binary.length t.code_size / t.block_size := by
        rw [Nat.min_comm]
        exact hmin
      omega
    calc a + t.block_size = (k + 1) * t.block_size := by
          rw [← hk1]; ring
      _ ≤ (min binary.length t.code_size / t.block_size) * t.block_size :=
          Nat.mul_le_mul_right _ hkN
      _ ≤ min binary.length t.code_size := Nat.div_mul_le_self _ _

set_option maxRecDepth 8192 in
/-- Witness for C10: a 384-byte image on a session with `code_size = 256`,
`block_size = 128` — only `min(384, 256) / 128 = 2` blocks are iterated. -/
theorem program_length_mismatch_witness :
    0 < (Teensy.connect ⟨256, 128⟩).block_size ∧
    (Teensy.connect ⟨256, 128⟩).block_size ∣ (Teensy.connect ⟨256, 128⟩).code_size ∧
    (List.replicate 384 1).length % (Teensy.connect ⟨256, 128⟩).block_size = 0 ∧
    ((Teensy.connect ⟨256, 128⟩).program (List.replicate 384 1) =
        some ⟨((progPairs (Teensy.connect ⟨256, 128⟩)
              (List.replicate 384 1)).filter keepBlock).map
            (fun p => blockWrite (Teensy.connect ⟨256, 128⟩) p.1 p.2),
          ((progPairs (Teensy.connect ⟨256, 128⟩)
              (List.replicate 384 1)).filter keepBlock).map Prod.fst, none⟩ ∧
      (progPairs (Teensy.connect ⟨256, 128⟩) (List.replicate 384 1)).length =
        min (List.replicate 384 1).length (Teensy.connect ⟨256, 128⟩).code_size /
          (Teensy.connect ⟨256, 128⟩).block_size ∧
      (∀ a ∈ ((progPairs (Teensy.connect ⟨256, 128⟩)
            (List.replicate 384 1)).filter keepBlock).map Prod.fst,
        a + (Teensy.connect ⟨256, 128⟩).block_size ≤
          min (List.replicate 384 1).length
            (Teensy.connect ⟨256, 128⟩).code_size)) :=
  ⟨by decide, ⟨2, rfl⟩, by decide,
    program_length_mismatch (Teensy.connect ⟨256, 128⟩) (List.replicate 384 1)
      (by decide) ⟨2, rfl⟩ (by decide)⟩

/-! ## ELF32 decoder -/

/-- The fields of an ELF32 section header consumed by `elf32_to_bytes`
(the `elf_rs` crate's parsed view): section type (`SHT_PROGBITS = 1`),
flags bitfield (`SHF_ALLOC = 0x2`), virtual address, size, and the
section's raw file bytes (`segment()`).  All numeric fields are `u32`
values, i.e. naturals below `2^32`. -/
structure SectionHeader32 where
  sh_type : Nat
  flags : Nat
  addr : Nat
  size : Nat
  segment : List Nat
deriving DecidableEq, Repr

/-- The fields of an ELF32 program header consumed by `elf32_to_bytes`:
virtual address, physical address, and memory size (all `u32`).  The
`ph_type` field is only inspected by the dispatcher (`load_file`), not by
`elf32_to_bytes`, so it is omitted here. -/
structure ProgramHeader32 where
  vaddr : Nat
  paddr : Nat
  memsz : Nat
deriving DecidableEq, Repr

/-- A parsed ELF32 container, reduced to what `elf32_to_bytes` reads:
the section-header table and the program-header table. -/
structure Elf32 where
  sections : List SectionHeader32
  program_headers : List ProgramHeader32
deriving DecidableEq, Repr

/-- `struct Section`: a candidate section with its resolved load
address. -/
structure Section where
  shdr : SectionHeader32
  load_addr : Nat
  size : Nat
deriving DecidableEq, Repr

/-- `Section::new`: find a program header whose virtual-address range
contains the section fully; if found, translate
`load_addr = addr - vaddr + paddr`, else keep the virtual address.  The
`u32` sums wrap, hence the `% 2^32`. -/
def Section.new (sec : SectionHeader32) (phdrs : List ProgramHeader32) : Section :=
  match phdrs.find? (fun phdr => decide (phdr.vaddr ≤ sec.addr) &&
      decide ((sec.addr + sec.size) % 2 ^ 32 ≤ (phdr.vaddr + phdr.memsz) % 2 ^ 32)) with
  | some phdr => ⟨sec, (sec.addr - phdr.vaddr + phdr.paddr) % 2 ^ 32, sec.size⟩
  | none => ⟨sec, sec.addr, sec.size⟩

/-- The section selection of `elf32_to_bytes`: every section of type
`SHT_PROGBITS` whose flags contain `SHF_ALLOC`, with resolved load
address. -/
def eligibleSections (elf : Elf32) : List Section :=
  (elf.sections.filter (fun s => decide (s.sh_type = 1) &&
      decide (s.flags &&& 2 ≠ 0))).map
    (fun s => Section.new s elf.program_headers)

/-- `enum ElfError {}` — the error type of `elf32_to_bytes` is empty in
the source: the function can never return an error value. -/
inductive ElfError where

instance : DecidableEq ElfError := fun a _ => nomatch a

/-- The observable outcome of `elf32_to_bytes`: a successful image with
its written length, a returned error (impossible, as `ElfError` is
uninhabited), or a Rust panic. -/
inductive ElfResult where
  | ok (data : List Nat) (len : Nat)
  | err (e : ElfError)
  | panic
deriving DecidableEq

/-- The copy loop of `elf32_to_bytes`:
`data[start..end].copy_from_slice(section.shdr.segment())` with
`len += end - start`.  The guard captures the panics of slice indexing
(`end > data.len()`, or `load_addr < base` underflowing `start`) and of
`copy_from_slice` on a length mismatch. -/
def copyLoop (base : Nat) : List Section → List Nat → Nat → Option (List Nat × Nat)
  | [], data, len => some (data, len)
  | s :: rest, data, len =>
    let start := s.load_addr - base
    let e := start + s.size
    if base ≤ s.load_addr ∧ e ≤ data.length ∧ s.shdr.segment.length = s.size then
      copyLoop base rest (writeBytes data start s.shdr.segment) (len + (e - start))
    else none

/-- `elf32_to_bytes`: select the eligible sections, compute
`base = min(load_addr)` and `end = max(load_addr + size)` (both
`.unwrap()`ed — a panic when there are zero sections), allocate a
zero-filled buffer of `end - base` bytes (whose size computation
underflows, hence diverges, if `end < base`), and copy each section in.
The `mcu` parameter is unused, exactly as `_mcu` is in the source. -/
def elf32_to_bytes (elf : Elf32) (_mcu : Mcu) : ElfResult :=
  let sections := eligibleSections elf
  match (sections.map (fun s => s.load_addr)).min?,
      (sections.map (fun s => (s.load_addr + s.size) % 2 ^ 32)).max? with
  | some base_addr, some end_addr =>
    if end_addr < base_addr then .panic
    else
      match copyLoop base_addr sections (List.replicate (end_addr - base_addr) 0) 0 with
      | some (data, len) => .ok data len
      | none => .panic
  | _, _ => .panic

theorem foldl_min_spec (l : List Nat) (a : Nat) :
    l.foldl min a ∈ a :: l ∧ ∀ b ∈ a :: l, l.foldl min a ≤ b := by
  induction l generalizing a with
  | nil => simp
  | cons c l ih =>
    obtain ⟨ih1, ih2⟩ := ih (min a c)
    constructor
    · simp only [List.foldl_cons]
      rcases List.mem_cons.mp ih1 with h1 | h1
      · rcases min_choice a c with hm | hm <;> rw [h1, hm] <;> simp
      · simp [h1]
    · intro b hb
      simp only [List.foldl_cons]
      rcases List.mem_cons.mp hb with hb | hb
      · subst hb
        exact le_trans (ih2 _ (List.mem_cons_self _ _)) (min_le_left _ _)
      · rcases List.mem_cons.mp hb with hb | hb
        · subst hb
          exact le_trans (ih2 _ (List.mem_cons_self _ _)) (min_le_right _ _)
        · exact ih2 _ (List.mem_cons_of_mem _ hb)

theorem foldl_max_spec (l : List Nat) (a : Nat) :
    l.foldl max a ∈ a :: l ∧ ∀ b ∈ a :: l, b ≤ l.foldl max a := by
  induction l generalizing a with
  | nil => simp
  | cons c l ih =>
    obtain ⟨ih1, ih2⟩ := ih (max a c)
    constructor
    · simp only [List.foldl_cons]
      rcases List.mem_cons.mp ih1 with h1 | h1
      · rcases max_choice a c with hm | hm <;> rw [h1, hm] <;> simp
      · simp [h1]
    · intro b hb
      simp only [List.foldl_cons]
      rcases List.mem_cons.mp hb with hb | hb
      · subst hb
        exact le_trans (le_max_left _ _) (ih2 _ (List.mem_cons_self _ _))
      · rcases List.mem_cons.mp hb with hb | hb
        · subst hb
          exact le_trans (le_max_right _ _) (ih2 _ (List.mem_cons_self _ _))
        · exact ih2 _ (List.mem_cons_of_mem _ hb)

theorem min?_spec {l : List Nat} {m : Nat} (h : l.min? = some m) :
    m ∈ l ∧ ∀ b ∈ l, m ≤ b := by
  cases l with
  | nil => simp [List.min?] at h
  | cons a l =>
    have : l.foldl min a = m := by
      simpa [List.min?] using h
    rw [← this]
    exact foldl_min_spec l a

theorem max?_spec {l : List Nat} {m : Nat} (h : l.max? = some m) :
    m ∈ l ∧ ∀ b ∈ l, b ≤ m := by
  cases l with
  | nil => simp [List.max?] at h
  | cons a l =>
    have : l.foldl max a = m := by
      simpa [List.max?] using h
    rw [← this]
    exact foldl_max_spec l a

theorem writeBytes_length (bytes : List Nat) (pos : Nat) (v : List Nat) :
    (writeBytes bytes pos v).length = bytes.length := by
  induction v generalizing bytes pos with
  | nil => rfl
  | cons b rest ih => simp [writeBytes, ih]

theorem writeBytes_getElem?_outside (bytes : List Nat) (pos : Nat) (v : List Nat)
    (i : Nat) (h : i < pos ∨ pos + v.length ≤ i) :
    (writeBytes bytes pos v)[i]? = bytes[i]? := by
  induction v generalizing bytes pos with
  | nil => rfl
  | cons b rest ih =>
    have hne : pos ≠ i := by
      simp only [List.length_cons] at h
      omega
    rw [writeBytes, ih _ _ (by simp only [List.length_cons] at h; omega),
      List.getElem?_set_ne hne]

theorem copyLoop_ok (base : Nat) (secs : List Section) (data : List Nat) (len : Nat)
    (h : ∀ s ∈ secs, base ≤ s.load_addr ∧ s.load_addr - base + s.size ≤ data.length ∧
      s.shdr.segment.length = s.size) :
    ∃ out, copyLoop base secs data len = some out ∧ out.1.length = data.length := by
  induction secs generalizing data len with
  | nil => exact ⟨(data, len), rfl, rfl⟩
  | cons s rest ih =>
    obtain ⟨h1, h2, h3⟩ := h s (List.mem_cons_self _ _)
    have hlen : (writeBytes data (s.load_addr - base) s.shdr.segment).length =
        data.length := writeBytes_length _ _ _
    obtain ⟨out, hout, houtlen⟩ := ih (writeBytes data (s.load_addr - base) s.shdr.segment)
      (len + (s.load_addr - base + s.size - (s.load_addr - base)))
      (fun q hq => by
        obtain ⟨q1, q2, q3⟩ := h q (List.mem_cons_of_mem _ hq)
        exact ⟨q1, by rw [hlen]; exact q2, q3⟩)
    refine ⟨out, ?_, by rw [houtlen, hlen]⟩
    rw [copyLoop, if_pos ⟨h1, h2, h3⟩]
    exact hout

theorem copyLoop_preserves (base : Nat) (secs : List Section) (data : List Nat)
    (len : Nat) (out : List Nat × Nat) (h : copyLoop base secs data len = some out) :
    out.1.length = data.length ∧
    ∀ i, (∀ s ∈ secs, ¬(s.load_addr - base ≤ i ∧ i < s.load_addr - base + s.size)) →
      out.1[i]? = data[i]? := by
  induction secs generalizing data len with
  | nil =>
    rw [copyLoop, Option.some_inj] at h
    rw [← h]
    exact ⟨rfl, fun i _ => rfl⟩
  | cons s rest ih =>
    rw [copyLoop] at h
    by_cases hg : base ≤ s.load_addr ∧
        s.load_addr - base + s.size ≤ data.length ∧ s.shdr.segment.length = s.size
    · rw [if_pos hg] at h
      obtain ⟨ihl, ihp⟩ := ih _ _ h
      refine ⟨by rw [ihl, writeBytes_length], ?_⟩
      intro i hi
      rw [ihp i (fun q hq => hi q (List.mem_cons_of_mem _ hq)),
        writeBytes_getElem?_outside]
      have := hi s (List.mem_cons_self _ _)
      rw [hg.2.2]
      omega
    · rw [if_neg hg] at h
      exact absurd h (by simp)

/-- C4 counterexample: on an ELF32 container with zero PROGBITS+ALLOC
sections, `elf32_to_bytes` does not return a rejection result — it panics
(the source `unwrap`s the `min()` of an empty iterator), and its error
type `ElfError` is uninhabited, so no error value can ever be returned. -/
theorem elf_no_sections_counterexample :
    eligibleSections ⟨[], []⟩ = [] ∧
    elf32_to_bytes ⟨[], []⟩ ⟨63488, 512⟩ = ElfResult.panic ∧
    ∀ e : ElfError, elf32_to_bytes ⟨[], []⟩ ⟨63488, 512⟩ ≠ ElfResult.err e :=
  ⟨rfl, rfl, fun e => nomatch e⟩

/-- C4 (amended): `elf32_to_bytes` can never return an error value (its
error type is empty); instead it PANICS when there are zero eligible
sections, and — for a well-formed container (section data matching the
declared sizes, no `u32` overflow in `load_addr + size`) — it panics only
in that case. -/
theorem elf_panics_iff_no_sections (elf : Elf32) (mcu : Mcu)
    (hwf : ∀ s ∈ eligibleSections elf, s.shdr.segment.length = s.size ∧
      s.load_addr + s.size < 2 ^ 32) :
    (elf32_to_bytes elf mcu = .panic ↔ eligibleSections elf = []) ∧
    (∀ e : ElfError, elf32_to_bytes elf mcu ≠ .err e) := by
  refine ⟨⟨?_, ?_⟩, fun e => nomatch e⟩
  · intro hp
    by_contra hne
    obtain ⟨s0, rest, hS⟩ : ∃ s0 rest, eligibleSections elf = s0 :: rest := by
      cases h : eligibleSections elf with
      | nil => exact absurd h hne
      | cons a l => exact ⟨a, l, rfl⟩
    obtain ⟨m, hm⟩ : ∃ m,
        ((eligibleSections elf).map (fun s => s.load_addr)).min? = some m := by
      rw [hS]; exact ⟨_, rfl⟩
    obtain ⟨M, hM⟩ : ∃ M, ((eligibleSections elf).map
        (fun s => (s.load_addr + s.size) % 2 ^ 32)).max? = some M := by
      rw [hS]; exact ⟨_, rfl⟩
    have hmle : ∀ s ∈ eligibleSections elf, m ≤ s.load_addr := fun s hs =>
      (min?_spec hm).2 _ (List.mem_map_of_mem _ hs)
    have hMge : ∀ s ∈ eligibleSections elf, s.load_addr + s.size ≤ M := by
      intro s hs
      have h1 := (max?_spec hM).2 _
        (List.mem_map_of_mem (fun s => (s.load_addr + s.size) % 2 ^ 32) hs)
      rwa [Nat.mod_eq_of_lt (hwf s hs).2] at h1
    have hmM : m ≤ M := by
      obtain ⟨s1, hs1, hs1m⟩ := List.mem_map.mp (min?_spec hm).1
      have := hMge s1 hs1
      omega
    obtain ⟨out, hout, _⟩ := copyLoop_ok m (eligibleSections elf)
      (List.replicate (M - m) 0) 0
      (fun s hs => ⟨hmle s hs, by
        have h1 := hmle s hs
        have h2 := hMge s hs
        simp only [List.length_replicate]
        omega, (hwf s hs).1⟩)
    obtain ⟨data, len⟩ := out
    have hok : elf32_to_bytes elf mcu = .ok data len := by
      simp only [elf32_to_bytes, hm, hM]
      rw [if_neg (not_lt.mpr hmM), hout]
    rw [hok] at hp
    simp at hp
  · intro h
    simp [elf32_to_bytes, h]

/-- Witness for C4 (amended) at a one-section container (PROGBITS+ALLOC,
address 0, one byte) and at the registry descriptor of `mkl26z64`. -/
theorem elf_panics_iff_no_sections_witness :
    (∀ s ∈ eligibleSections ⟨[⟨1, 2, 0, 1, [0xAB]⟩], []⟩,
      s.shdr.segment.length = s.size ∧ s.load_addr + s.size < 2 ^ 32) ∧
    ((elf32_to_bytes ⟨[⟨1, 2, 0, 1, [0xAB]⟩], []⟩ ⟨63488, 512⟩ = .panic ↔
        eligibleSections ⟨[⟨1, 2, 0, 1, [0xAB]⟩], []⟩ = []) ∧
      ∀ e : ElfError,
        elf32_to_bytes ⟨[⟨1, 2, 0, 1, [0xAB]⟩], []⟩ ⟨63488, 512⟩ ≠ .err e) :=
  ⟨by decide, elf_panics_iff_no_sections ⟨[⟨1, 2, 0, 1, [0xAB]⟩], []⟩ ⟨63488, 512⟩
    (by decide)⟩

/-- Whether byte address `i` is supplied by some data record that the
decoder actually processes: scans the records exactly as `ihex_to_bytes`
does (tracking `base_address`, stopping at end-of-file or at the first
out-of-bounds record, which aborts the decode). -/
def coversIHex (cs : Nat) : List IHexRecord → Nat → Nat → Bool
  | [], _, _ => false
  | r :: recs, base, i =>
    match r with
    | .data offset value =>
      if cs ≤ base + offset + value.length then false
      else
        decide (base + offset ≤ i ∧ i < base + offset + value.length) ||
          coversIHex cs recs base i
    | .extendedSegmentAddress b => coversIHex cs recs (b <<< 4) i
    | .extendedLinearAddress b => coversIHex cs recs (b <<< 16) i
    | .endOfFile => false
    | .startLinearAddress _ => coversIHex cs recs base i
    | .startSegmentAddress _ _ => coversIHex cs recs base i

theorem ihexGo_untouched (mcu : Mcu) (recs : List IHexRecord) (base : Nat)
    (st : List Nat) (len : Nat) (bytes : List Nat) (n : Nat)
    (h : ihexGo mcu recs base st len = .ok (bytes, n)) :
    bytes.length = st.length ∧
    ∀ i, coversIHex mcu.code_size recs base i = false → bytes[i]? = st[i]? := by
  induction recs generalizing base st len with
  | nil =>
    rw [ihexGo] at h
    obtain ⟨h1, _⟩ := Prod.mk.injEq .. ▸ (Except.ok.injEq _ _).mp h
    subst h1
    exact ⟨rfl, fun i _ => rfl⟩
  | cons r recs ih =>
    cases r with
    | data offset value =>
      rw [ihexGo] at h
      by_cases hle : mcu.code_size ≤ base + offset + value.length
      · rw [if_pos hle] at h
        exact absurd h (by simp)
      · rw [if_neg hle] at h
        obtain ⟨ihl, ihp⟩ := ih _ _ _ h
        refine ⟨by rw [ihl, writeBytes_length], ?_⟩
        intro i hcov
        rw [coversIHex, if_neg hle, Bool.or_eq_false_iff] at hcov
        rw [ihp i hcov.2, writeBytes_getElem?_outside]
        have := of_decide_eq_false hcov.1
        omega
    | extendedSegmentAddress b =>
      rw [ihexGo] at h
      obtain ⟨ihl, ihp⟩ := ih _ _ _ h
      exact ⟨ihl, fun i hcov => ihp i (by rwa [coversIHex] at hcov)⟩
    | extendedLinearAddress b =>
      rw [ihexGo] at h
      obtain ⟨ihl, ihp⟩ := ih _ _ _ h
      exact ⟨ihl, fun i hcov => ihp i (by rwa [coversIHex] at hcov)⟩
    | endOfFile =>
      rw [ihexGo] at h
      obtain ⟨h1, _⟩ := Prod.mk.injEq .. ▸ (Except.ok.injEq _ _).mp h
      subst h1
      exact ⟨rfl, fun i _ => rfl⟩
    | startLinearAddress a =>
      rw [ihexGo] at h
      obtain ⟨ihl, ihp⟩ := ih _ _ _ h
      exact ⟨ihl, fun i hcov => ihp i (by rwa [coversIHex] at hcov)⟩
    | startSegmentAddress a b =>
      rw [ihexGo] at h
      obtain ⟨ihl, ihp⟩ := ih _ _ _ h
      exact ⟨ihl, fun i hcov => ihp i (by rwa [coversIHex] at hcov)⟩

/-- `base = min(load_addr)` over the eligible sections (0 if none). -/
def elfBase (elf : Elf32) : Nat :=
  (((eligibleSections elf).map (fun s => s.load_addr)).min?).getD 0

/-- `end = max(load_addr + size)` (as wrapping `u32`) over the eligible
sections (0 if none). -/
def elfEnd (elf : Elf32) : Nat :=
  (((eligibleSections elf).map
    (fun s => (s.load_addr + s.size) % 2 ^ 32)).max?).getD 0

/-- C3 counterexample: an ELF32 container with two one-byte
PROGBITS+ALLOC sections at addresses 0 and 2, against an MCU with
`code_size = 4`.  The produced image is `[0xAB, 0x00, 0xCD]`: its length
is 3, not `code_size = 4`, and the byte not supplied by the file (the
gap at index 1) is `0x00`, not the erased-flash value `0xFF`. -/
theorem loader_image_counterexample :
    elf32_to_bytes ⟨[⟨1, 2, 0, 1, [0xAB]⟩, ⟨1, 2, 2, 1, [0xCD]⟩], []⟩ ⟨4, 2⟩ =
      ElfResult.ok [0xAB, 0x00, 0xCD] 2 ∧
    ¬ ([0xAB, 0x00, 0xCD] : List Nat).length = (⟨4, 2⟩ : Mcu).code_size ∧
    ¬ ([0xAB, 0x00, 0xCD] : List Nat).getD 1 0 = 0xFF := by
  decide

/-- C3 (amended): the Intel HEX loader produces a buffer of length
exactly `code_size` in which every byte not supplied by a processed data
record is the erased-flash value `0xFF`; the ELF32 loader instead
produces a buffer of length `end - base` over the eligible sections'
extents (not bounded by `code_size`), in which every byte not supplied by
a section is `0x00`. -/
theorem loader_image_shape (recs : List IHexRecord) (mcu : Mcu)
    (bytes : List Nat) (n : Nat) (elf : Elf32) (mcu2 : Mcu)
    (data : List Nat) (wlen : Nat)
    (hihex : ihex_to_bytes recs mcu = .ok (bytes, n))
    (helf : elf32_to_bytes elf mcu2 = .ok data wlen) :
    (bytes.length = mcu.code_size ∧
      ∀ i, i < mcu.code_size → coversIHex mcu.code_size recs 0 i = false →
        bytes[i]? = some 0xFF) ∧
    (data.length = elfEnd elf - elfBase elf ∧
      ∀ i, i < data.length →
        (∀ s ∈ eligibleSections elf, ¬(s.load_addr - elfBase elf ≤ i ∧
          i < s.load_addr - elfBase elf + s.size)) →
        data[i]? = some 0) := by
  constructor
  · obtain ⟨hl, hp⟩ := ihexGo_untouched mcu recs 0
      (List.replicate mcu.code_size 0xFF) 0 bytes n hihex
    refine ⟨by rw [hl, List.length_replicate], ?_⟩
    intro i hi hcov
    rw [hp i hcov, List.getElem?_replicate, if_pos hi]
  · obtain ⟨s0, rest, hS⟩ : ∃ s0 rest, eligibleSections elf = s0 :: rest := by
      cases h : eligibleSections elf with
      | nil => simp [elf32_to_bytes, h] at helf
      | cons a l => exact ⟨a, l, rfl⟩
    obtain ⟨m, hm⟩ : ∃ m,
        ((eligibleSections elf).map (fun s => s.load_addr)).min? = some m := by
      rw [hS]; exact ⟨_, rfl⟩
    obtain ⟨M, hM⟩ : ∃ M, ((eligibleSections elf).map
        (fun s => (s.load_addr + s.size) % 2 ^ 32)).max? = some M := by
      rw [hS]; exact ⟨_, rfl⟩
    have hbase : elfBase elf = m := by rw [elfBase, hm]; rfl
    have hend : elfEnd elf = M := by rw [elfEnd, hM]; rfl
    simp only [elf32_to_bytes, hm, hM] at helf
    by_cases hMm : M < m
    · rw [if_pos hMm] at helf
      exact absurd helf (by simp)
    · rw [if_neg hMm] at helf
      cases hcopy : copyLoop m (eligibleSections elf)
          (List.replicate (M - m) 0) 0 with
      | none =>
        rw [hcopy] at helf
        exact absurd helf (by simp)
      | some out =>
        obtain ⟨d0, l0⟩ := out
        rw [hcopy] at helf
        obtain ⟨hd, hw⟩ := (ElfResult.ok.injEq _ _ _ _).mp helf
        rw [hd] at hcopy
        obtain ⟨hplen, hpp⟩ := copyLoop_preserves m (eligibleSections elf)
          (List.replicate (M - m) 0) 0 (data, l0) hcopy
        simp only [List.length_replicate] at hplen
        refine ⟨by rw [hplen, hbase, hend], ?_⟩
        intro i hilt hnc
        have h1 : data[i]? = (List.replicate (M - m) 0)[i]? := by
          refine hpp i ?_
          intro s hs
          have := hnc s hs
          rwa [hbase] at this
        rw [h1, List.getElem?_replicate, if_pos (by rw [hplen] at hilt; exact hilt)]

/-- Witness for C3 (amended): a one-byte data record at offset 1 against
`code_size = 4`, and a one-section ELF32 container. -/
theorem loader_image_shape_witness :
    ihex_to_bytes [IHexRecord.data 1 [0xAB]] ⟨4, 2⟩ =
      .ok ([0xFF, 0xAB, 0xFF, 0xFF], 1) ∧
    elf32_to_bytes ⟨[⟨1, 2, 0, 1, [0xCD]⟩], []⟩ ⟨4, 2⟩ =
      .ok [0xCD] 1 ∧
    (([0xFF, 0xAB, 0xFF, 0xFF] : List Nat).length = (⟨4, 2⟩ : Mcu).code_size ∧
      ∀ i, i < (⟨4, 2⟩ : Mcu).code_size →
        coversIHex (⟨4, 2⟩ : Mcu).code_size [IHexRecord.data 1 [0xAB]] 0 i = false →
        ([0xFF, 0xAB, 0xFF, 0xFF] : List Nat)[i]? = some 0xFF) ∧
    (([0xCD] : List Nat).length =
        elfEnd ⟨[⟨1, 2, 0, 1, [0xCD]⟩], []⟩ - elfBase ⟨[⟨1, 2, 0, 1, [0xCD]⟩], []⟩ ∧
      ∀ i, i < ([0xCD] : List Nat).length →
        (∀ s ∈ eligibleSections ⟨[⟨1, 2, 0, 1, [0xCD]⟩], []⟩,
          ¬(s.load_addr - elfBase ⟨[⟨1, 2, 0, 1, [0xCD]⟩], []⟩ ≤ i ∧
            i < s.load_addr - elfBase ⟨[⟨1, 2, 0, 1, [0xCD]⟩], []⟩ + s.size)) →
        ([0xCD] : List Nat)[i]? = some 0) := by
  have h1 : ihex_to_bytes [IHexRecord.data 1 [0xAB]] ⟨4, 2⟩ =
      .ok ([0xFF, 0xAB, 0xFF, 0xFF], 1) := by rfl
  have h2 : elf32_to_bytes ⟨[⟨1, 2, 0, 1, [0xCD]⟩], []⟩ ⟨4, 2⟩ =
      .ok [0xCD] 1 := by decide
  have h3 := loader_image_shape [IHexRecord.data 1 [0xAB]] ⟨4, 2⟩
    [0xFF, 0xAB, 0xFF, 0xFF] 1 ⟨[⟨1, 2, 0, 1, [0xCD]⟩], []⟩ ⟨4, 2⟩ [0xCD] 1
    h1 h2
  exact ⟨h1, h2, h3.1, h3.2⟩
